import Mathlib

/-!
Verification of the flow-aggregation and ranking engine of the GNO flow
monitor.  The definitions below are a shallow embedding of
`scripts/export-summary.ts` and `src/EventHandlers.ts`: JavaScript `bigint`
becomes `Int`/`Nat`, JS `Map` (insertion-ordered) becomes an association
list whose `set` updates in place and appends new keys, JS `Set` becomes an
insertion-ordered duplicate-free list, and fallible network calls become
`Except`-valued functions over an explicit oracle of store replies.
-/

namespace GnoFlow

/-! ### Constants (export-summary.ts) -/

def TOP_N : Nat := 50

def DECIMALS_DIVISOR : Nat := 10 ^ 18

def ZERO : String := "0x0000000000000000000000000000000000000000"

/-! ### Decimal printing of natural numbers.

`bigintToDecimalString` interpolates JS bigints into template strings,
which prints their canonical base-10 representation.  `decDigitsAux` is
that canonical digit expansion (fuel-based so that it reduces by `rfl`). -/

def decDigitsAux : Nat → Nat → List Char
  | 0, _ => []
  | fuel + 1, n =>
    if n < 10 then [Nat.digitChar n]
    else decDigitsAux fuel (n / 10) ++ [Nat.digitChar (n % 10)]

def natToDecimal (n : Nat) : String :=
  ⟨decDigitsAux (n + 1) n⟩

/-- `String.prototype.replace(/0+$/, "")`: strip the trailing zeros. -/
def dropTrailingZerosL (l : List Char) : List Char :=
  (l.reverse.dropWhile (fun c => c == '0')).reverse

def stripTrailingZeros (s : String) : String :=
  ⟨dropTrailingZerosL s.data⟩

/-- `String.prototype.padStart(18, "0")`. -/
def padStart18 (s : String) : String :=
  ⟨List.replicate (18 - s.data.length) '0' ++ s.data⟩

/-- `bigintToDecimalString` (export-summary.ts, lines 52-61). -/
def bigintToDecimalString (raw : Int) : String :=
  let negative := raw < 0
  let abs := raw.natAbs
  let whole := abs / DECIMALS_DIVISOR
  let frac := abs % DECIMALS_DIVISOR
  let pre := if negative then ("-" : String) else ("")
  if frac = 0 then pre ++ natToDecimal whole
  else pre ++ natToDecimal whole ++ ("." : String) ++
    stripTrailingZeros (padStart18 (natToDecimal frac))

/-! ### A reference reader for minimal fixed-point decimal strings.

Modelled from the spec (§4.1 and §8): a minimal decimal string is an
optional leading "-" (never on zero), an unpadded integer part, and an
optional "." followed by a nonempty fraction of at most 18 digits whose
last digit is not zero.  The reader rejects every non-minimal form and
returns the encoded fixed-point integer, so a total round trip through it
certifies both the value and the minimality of the printed string. -/

def digitVal (c : Char) : Nat := c.toNat - 48

def digitsToNat (l : List Char) : Nat :=
  l.foldl (fun a c => 10 * a + digitVal c) 0

def splitIntFrac : List Char → List Char × Option (List Char)
  | [] => ([], none)
  | c :: rest =>
    if c = '.' then ([], some rest)
    else
      let p := splitIntFrac rest
      (c :: p.1, p.2)

def readMagnitude (l : List Char) : Option Nat :=
  let p := splitIntFrac l
  let ip := p.1
  if ip = [] then none
  else if ¬ (ip.all Char.isDigit) then none
  else if ip.head? = some '0' ∧ ip ≠ ['0'] then none
  else
    match p.2 with
    | none => some (digitsToNat ip * 10 ^ 18)
    | some fp =>
      if fp = [] then none
      else if ¬ (fp.all Char.isDigit) then none
      else if 18 < fp.length then none
      else if fp.getLast? = some '0' then none
      else some (digitsToNat ip * 10 ^ 18 + digitsToNat fp * 10 ^ (18 - fp.length))

def readDecimalString (s : String) : Option Int :=
  match s.data with
  | [] => none
  | c :: rest =>
    if c = '-' then
      (readMagnitude rest).bind fun m => if m = 0 then none else some (-(m : Int))
    else (readMagnitude (c :: rest)).map fun m => (m : Int)

/-! ### Digit arithmetic lemmas -/

theorem digitVal_digitChar {n : Nat} (h : n < 10) :
    digitVal (Nat.digitChar n) = n := by
  interval_cases n <;> decide

theorem isDigit_digitChar {n : Nat} (h : n < 10) :
    (Nat.digitChar n).isDigit = true := by
  interval_cases n <;> decide

theorem digitChar_eq_zero_iff {n : Nat} (h : n < 10) :
    Nat.digitChar n = '0' ↔ n = 0 := by
  interval_cases n <;> decide

theorem digitVal_le_of_isDigit {c : Char} (h : c.isDigit = true) :
    digitVal c ≤ 9 := by
  simp only [Char.isDigit, Bool.and_eq_true, decide_eq_true_eq] at h
  have h1 : 48 ≤ c.toNat := h.1
  have h2 : c.toNat ≤ 57 := h.2
  simp only [digitVal]
  omega

theorem one_le_digitVal_of_ne_zero {c : Char} (hd : c.isDigit = true)
    (hne : c ≠ '0') : 1 ≤ digitVal c := by
  simp only [Char.isDigit, Bool.and_eq_true, decide_eq_true_eq] at hd
  have h1 : 48 ≤ c.toNat := hd.1
  have hch : c.toNat ≠ 48 := by
    intro hc
    apply hne
    rw [← Char.ofNat_toNat c, hc]
  simp only [digitVal]
  omega

theorem digitsToNat_nil : digitsToNat [] = 0 := rfl

theorem digitsToNat_append_singleton (l : List Char) (c : Char) :
    digitsToNat (l ++ [c]) = 10 * digitsToNat l + digitVal c := by
  simp [digitsToNat, List.foldl_append]

theorem foldl_digit_replicate_zero (k : Nat) :
    List.foldl (fun a c => 10 * a + digitVal c) 0 (List.replicate k '0') = 0 := by
  induction k with
  | zero => rfl
  | succ k ih => simpa [List.replicate_succ] using ih

theorem digitsToNat_replicate_zero_append (k : Nat) (l : List Char) :
    digitsToNat (List.replicate k '0' ++ l) = digitsToNat l := by
  simp [digitsToNat, List.foldl_append, foldl_digit_replicate_zero]

theorem digitsToNat_append_replicate_zero (l : List Char) (k : Nat) :
    digitsToNat (l ++ List.replicate k '0') = digitsToNat l * 10 ^ k := by
  induction k with
  | zero => simp
  | succ k ih =>
    rw [List.replicate_succ' (n := k), ← List.append_assoc,
      digitsToNat_append_singleton, ih]
    have : digitVal '0' = 0 := rfl
    rw [this]
    ring

theorem digitsToNat_replicate_zero (k : Nat) :
    digitsToNat (List.replicate k '0') = 0 := by
  have h := digitsToNat_append_replicate_zero [] k
  simpa [digitsToNat_nil] using h

theorem digitsToNat_lt {l : List Char} (h : ∀ c ∈ l, c.isDigit = true) :
    digitsToNat l < 10 ^ l.length := by
  induction l using List.reverseRecOn with
  | nil => simp [digitsToNat]
  | append_singleton l c ih =>
    rw [digitsToNat_append_singleton]
    have hc : digitVal c ≤ 9 :=
      digitVal_le_of_isDigit (h c (by simp))
    have hl : digitsToNat l < 10 ^ l.length :=
      ih (fun x hx => h x (by simp [hx]))
    have : (l ++ [c]).length = l.length + 1 := by simp
    rw [this, pow_succ]
    omega

theorem le_digitsToNat_of_head_ne_zero {l : List Char} (hne : l ≠ [])
    (hd : ∀ c ∈ l, c.isDigit = true) (hh : l.head? ≠ some '0') :
    10 ^ (l.length - 1) ≤ digitsToNat l := by
  induction l using List.reverseRecOn with
  | nil => simp at hne
  | append_singleton l c ih =>
    rw [digitsToNat_append_singleton]
    rcases List.eq_nil_or_concat l with h0 | _
    · subst h0
      simp only [List.nil_append, List.head?_cons] at hh
      have hc : c ≠ '0' := fun h => hh (by rw [h])
      have := one_le_digitVal_of_ne_zero (hd c (by simp)) hc
      simpa [digitsToNat] using this
    · have hl0 : l ≠ [] := by
        rintro rfl
        simp_all
      have hhead : (l ++ [c]).head? = l.head? := by
        cases l with
        | nil => simp_all
        | cons a as => simp
      rw [hhead] at hh
      have hll := ih hl0 (fun x hx => hd x (by simp [hx])) hh
      have hlen : (l ++ [c]).length - 1 = l.length := by simp
      rw [hlen]
      have hpos : 1 ≤ 10 ^ (l.length - 1) := Nat.one_le_two_pow.trans
        (Nat.pow_le_pow_left (by norm_num) _)
      have h10 : 10 ^ l.length ≤ 10 * 10 ^ (l.length - 1) := by
        cases l with
        | nil => simp_all
        | cons a as => simp [pow_succ]; ring_nf; omega
      omega

/-! ### Correctness of the canonical digit expansion -/

theorem decDigitsAux_spec :
    ∀ fuel n, n < 10 ^ fuel → 0 < fuel →
      decDigitsAux fuel n ≠ [] ∧
      (∀ c ∈ decDigitsAux fuel n, c.isDigit = true) ∧
      digitsToNat (decDigitsAux fuel n) = n ∧
      (n ≠ 0 → (decDigitsAux fuel n).head? ≠ some '0') ∧
      (n = 0 → decDigitsAux fuel n = ['0']) := by
  intro fuel
  induction fuel with
  | zero => intro n _ h0; omega
  | succ f ih =>
    intro n hn _
    by_cases hsmall : n < 10
    · have hdef : decDigitsAux (f + 1) n = [Nat.digitChar n] := by
        simp [decDigitsAux, hsmall]
      refine ⟨by simp [hdef], ?_, ?_, ?_, ?_⟩
      · intro c hc
        rw [hdef] at hc
        simp at hc
        subst hc
        exact isDigit_digitChar hsmall
      · rw [hdef]
        have : digitsToNat [Nat.digitChar n] = digitVal (Nat.digitChar n) := by
          simp [digitsToNat]
        rw [this, digitVal_digitChar hsmall]
      · intro hne
        rw [hdef]
        simp only [List.head?_cons, ne_eq, Option.some.injEq]
        intro hz
        exact hne ((digitChar_eq_zero_iff hsmall).mp hz)
      · intro h0
        subst h0
        rw [hdef]
        rfl
    · have hge : 10 ≤ n := by omega
      have hdef : decDigitsAux (f + 1) n =
          decDigitsAux f (n / 10) ++ [Nat.digitChar (n % 10)] := by
        simp [decDigitsAux, hsmall]
      have hfpos : 0 < f := by
        rcases Nat.eq_zero_or_pos f with h0 | h0
        · subst h0
          simp at hn
          omega
        · exact h0
      have hdiv : n / 10 < 10 ^ f := by
        rw [Nat.div_lt_iff_lt_mul (by norm_num)]
        calc n < 10 ^ (f + 1) := hn
        _ = 10 ^ f * 10 := by rw [pow_succ]
      obtain ⟨hne', hdig', hval', hhd', _⟩ := ih (n / 10) hdiv hfpos
      have hdivne : n / 10 ≠ 0 := by
        intro h
        have := Nat.div_eq_zero_iff (by norm_num : 0 < 10) |>.mp h
        omega
      refine ⟨by simp [hdef], ?_, ?_, ?_, ?_⟩
      · intro c hc
        rw [hdef] at hc
        rcases List.mem_append.mp hc with h | h
        · exact hdig' c h
        · simp at h
          subst h
          exact isDigit_digitChar (Nat.mod_lt _ (by norm_num))
      · rw [hdef, digitsToNat_append_singleton, hval',
          digitVal_digitChar (Nat.mod_lt _ (by norm_num))]
        omega
      · intro _
        rw [hdef]
        have : (decDigitsAux f (n / 10) ++ [Nat.digitChar (n % 10)]).head? =
            (decDigitsAux f (n / 10)).head? := by
          cases hcase : decDigitsAux f (n / 10) with
          | nil => exact absurd hcase hne'
          | cons a as => simp
        rw [this]
        exact hhd' hdivne
      · intro h0
        omega

theorem natToDecimal_ne_nil (n : Nat) : (natToDecimal n).data ≠ [] := by
  have h := decDigitsAux_spec (n + 1) n
    (lt_of_lt_of_le (Nat.lt_pow_self (by norm_num) n)
      (Nat.pow_le_pow_right (by norm_num) (by omega))) (by omega)
  exact h.1

theorem natToDecimal_isDigit (n : Nat) :
    ∀ c ∈ (natToDecimal n).data, c.isDigit = true := by
  have h := decDigitsAux_spec (n + 1) n
    (lt_of_lt_of_le (Nat.lt_pow_self (by norm_num) n)
      (Nat.pow_le_pow_right (by norm_num) (by omega))) (by omega)
  exact h.2.1

theorem digitsToNat_natToDecimal (n : Nat) :
    digitsToNat (natToDecimal n).data = n := by
  have h := decDigitsAux_spec (n + 1) n
    (lt_of_lt_of_le (Nat.lt_pow_self (by norm_num) n)
      (Nat.pow_le_pow_right (by norm_num) (by omega))) (by omega)
  exact h.2.2.1

theorem natToDecimal_head_ne_zero {n : Nat} (h : n ≠ 0) :
    (natToDecimal n).data.head? ≠ some '0' := by
  have hs := decDigitsAux_spec (n + 1) n
    (lt_of_lt_of_le (Nat.lt_pow_self (by norm_num) n)
      (Nat.pow_le_pow_right (by norm_num) (by omega))) (by omega)
  exact hs.2.2.2.1 h

theorem natToDecimal_zero : natToDecimal 0 = ⟨['0']⟩ := rfl

theorem length_natToDecimal_le {n k : Nat} (hk : 0 < k) (h : n < 10 ^ k) :
    (natToDecimal n).data.length ≤ k := by
  by_cases h0 : n = 0
  · subst h0
    rw [natToDecimal_zero]
    simpa using hk
  by_contra hgt
  push_neg at hgt
  have hlow := le_digitsToNat_of_head_ne_zero (natToDecimal_ne_nil n)
    (natToDecimal_isDigit n) (natToDecimal_head_ne_zero h0)
  rw [digitsToNat_natToDecimal] at hlow
  have : 10 ^ k ≤ 10 ^ ((natToDecimal n).data.length - 1) :=
    Nat.pow_le_pow_right (by norm_num) (by omega)
  omega

/-! ### Stripping trailing zeros -/

theorem dropTrailingZerosL_spec (l : List Char) :
    ∃ k, l = dropTrailingZerosL l ++ List.replicate k '0' := by
  refine ⟨(l.reverse.takeWhile (fun c => c == '0')).length, ?_⟩
  have hrep : l.reverse.takeWhile (fun c => c == '0') =
      List.replicate (l.reverse.takeWhile (fun c => c == '0')).length '0' := by
    apply List.eq_replicate_of_mem
    intro b hb
    have := List.mem_takeWhile_imp hb
    simpa using this
  conv_lhs => rw [← List.reverse_reverse l,
    ← List.takeWhile_append_dropWhile (p := fun c => c == '0') (l := l.reverse)]
  rw [List.reverse_append, dropTrailingZerosL]
  rw [hrep, List.reverse_replicate]
  simp

theorem getLast?_dropTrailingZerosL (l : List Char) :
    (dropTrailingZerosL l).getLast? ≠ some '0' := by
  rw [dropTrailingZerosL, List.getLast?_reverse]
  have h := List.head?_dropWhile_not (fun c => c == '0') l.reverse
  cases hc : (l.reverse.dropWhile (fun c => c == '0')).head? with
  | none => simp
  | some x =>
    rw [hc] at h
    simp only [ne_eq, Option.some.injEq]
    intro hx
    subst hx
    simp at h

theorem mem_dropTrailingZerosL {l : List Char} {c : Char}
    (h : c ∈ dropTrailingZerosL l) : c ∈ l := by
  obtain ⟨k, hk⟩ := dropTrailingZerosL_spec l
  rw [hk]
  exact List.mem_append.mpr (Or.inl h)

/-! ### The splitter recovers printed parts -/

theorem isDigit_ne_dot {c : Char} (h : c.isDigit = true) : c ≠ '.' := by
  intro hc
  subst hc
  simp at h

theorem splitIntFrac_no_dot {l : List Char} (h : ∀ c ∈ l, c.isDigit = true) :
    splitIntFrac l = (l, none) := by
  induction l with
  | nil => rfl
  | cons c rest ih =>
    have hc : c ≠ '.' := isDigit_ne_dot (h c (by simp))
    simp only [splitIntFrac, if_neg hc]
    rw [ih (fun x hx => h x (by simp [hx]))]

theorem splitIntFrac_append_dot {l fp : List Char}
    (h : ∀ c ∈ l, c.isDigit = true) :
    splitIntFrac (l ++ '.' :: fp) = (l, some fp) := by
  induction l with
  | nil => simp [splitIntFrac]
  | cons c rest ih =>
    have hc : c ≠ '.' := isDigit_ne_dot (h c (by simp))
    simp only [List.cons_append, splitIntFrac, if_neg hc, List.append_eq]
    rw [ih (fun x hx => h x (by simp [hx]))]

/-! ### The integer part passes the minimality checks -/

theorem intPart_checks (whole : Nat) :
    (natToDecimal whole).data ≠ [] ∧
    ((natToDecimal whole).data.all Char.isDigit) = true ∧
    ¬ ((natToDecimal whole).data.head? = some '0' ∧
      (natToDecimal whole).data ≠ ['0']) := by
  refine ⟨natToDecimal_ne_nil whole, ?_, ?_⟩
  · rw [List.all_eq_true]
    exact natToDecimal_isDigit whole
  · by_cases h0 : whole = 0
    · subst h0
      rw [natToDecimal_zero]
      simp
    · intro hcon
      exact natToDecimal_head_ne_zero h0 hcon.1

/-! ### Round trip through the reader for the magnitude part -/

theorem readMagnitude_print (whole frac : Nat) (hfrac_lt : frac < 10 ^ 18) :
    readMagnitude ((natToDecimal whole).data ++
      (if frac = 0 then ([] : List Char)
       else '.' :: dropTrailingZerosL
         ((padStart18 (natToDecimal frac)).data))) =
    some (whole * 10 ^ 18 + frac) := by
  obtain ⟨hne, hall, hmin⟩ := intPart_checks whole
  have hdigits : ∀ c ∈ (natToDecimal whole).data, c.isDigit = true :=
    natToDecimal_isDigit whole
  by_cases h0 : frac = 0
  · subst h0
    rw [if_pos rfl, List.append_nil, readMagnitude,
      splitIntFrac_no_dot hdigits]
    simp only [hall, Bool.not_true, not_false_eq_true, not_true_eq_false,
      if_neg hne, if_false, if_neg hmin]
    rw [digitsToNat_natToDecimal, Nat.add_zero]
  · have hlen : (natToDecimal frac).data.length ≤ 18 :=
      length_natToDecimal_le (by norm_num) hfrac_lt
    have hpadded_eq : (padStart18 (natToDecimal frac)).data =
        List.replicate (18 - (natToDecimal frac).data.length) '0' ++
          (natToDecimal frac).data := rfl
    have hpadlen : (padStart18 (natToDecimal frac)).data.length = 18 := by
      rw [hpadded_eq]
      simp only [List.length_append, List.length_replicate]
      omega
    have hpadval : digitsToNat (padStart18 (natToDecimal frac)).data = frac := by
      rw [hpadded_eq, digitsToNat_replicate_zero_append,
        digitsToNat_natToDecimal]
    obtain ⟨k, hk⟩ := dropTrailingZerosL_spec (padStart18 (natToDecimal frac)).data
    have hfpne : dropTrailingZerosL (padStart18 (natToDecimal frac)).data ≠ [] := by
      intro hnil
      rw [hnil, List.nil_append] at hk
      rw [hk, digitsToNat_replicate_zero] at hpadval
      exact h0 hpadval.symm
    have hfpdig : ∀ c ∈ dropTrailingZerosL (padStart18 (natToDecimal frac)).data,
        c.isDigit = true := by
      intro c hc
      have hcp := mem_dropTrailingZerosL hc
      rw [hpadded_eq] at hcp
      rcases List.mem_append.mp hcp with h | h
      · have : c = '0' := List.eq_of_mem_replicate h
        subst this
        decide
      · exact natToDecimal_isDigit frac c h
    have hfplen :
        (dropTrailingZerosL (padStart18 (natToDecimal frac)).data).length + k = 18 := by
      have hlk := congrArg List.length hk
      simp only [List.length_append, List.length_replicate] at hlk
      omega
    have hfpval : digitsToNat (dropTrailingZerosL (padStart18 (natToDecimal frac)).data) *
        10 ^ (18 - (dropTrailingZerosL (padStart18 (natToDecimal frac)).data).length)
        = frac := by
      have hv := congrArg digitsToNat hk
      rw [digitsToNat_append_replicate_zero] at hv
      rw [hpadval] at hv
      have hkk :
          18 - (dropTrailingZerosL (padStart18 (natToDecimal frac)).data).length = k := by
        omega
      rw [hkk]
      exact hv.symm
    have hfpall :
        ((dropTrailingZerosL (padStart18 (natToDecimal frac)).data).all Char.isDigit)
          = true := by
      rw [List.all_eq_true]
      exact hfpdig
    rw [if_neg h0, readMagnitude, splitIntFrac_append_dot hdigits]
    simp only [hall, hfpall, Bool.not_true, not_false_eq_true, not_true_eq_false,
      if_neg hne, if_false, if_neg hmin, if_neg hfpne,
      if_neg (by omega :
        ¬ 18 < (dropTrailingZerosL (padStart18 (natToDecimal frac)).data).length),
      if_neg (getLast?_dropTrailingZerosL (padStart18 (natToDecimal frac)).data)]
    rw [digitsToNat_natToDecimal, hfpval]

theorem bigintToDecimalString_data (raw : Int) :
    (bigintToDecimalString raw).data =
      (if raw < 0 then ['-'] else []) ++
      ((natToDecimal (raw.natAbs / DECIMALS_DIVISOR)).data ++
        (if raw.natAbs % DECIMALS_DIVISOR = 0 then ([] : List Char)
         else '.' :: dropTrailingZerosL
           ((padStart18 (natToDecimal (raw.natAbs % DECIMALS_DIVISOR))).data))) := by
  by_cases hneg : raw < 0 <;> by_cases h0 : raw.natAbs % DECIMALS_DIVISOR = 0 <;>
    simp [bigintToDecimalString, stripTrailingZeros, hneg, h0,
      String.data_append]

theorem readDecimalString_neg_head (rest : List Char) :
    readDecimalString ⟨'-' :: rest⟩ =
      (readMagnitude rest).bind fun m => if m = 0 then none else some (-(m : Int)) := by
  simp [readDecimalString]

theorem readDecimalString_digit_head {c : Char} (h : c ≠ '-') (rest : List Char) :
    readDecimalString ⟨c :: rest⟩ =
      (readMagnitude (c :: rest)).map fun m => (m : Int) := by
  simp [readDecimalString, h]

theorem readDecimalString_bigintToDecimalString (raw : Int) :
    readDecimalString (bigintToDecimalString raw) = some raw := by
  have hDpos : 0 < DECIMALS_DIVISOR := by norm_num [DECIMALS_DIVISOR]
  have hfrac_lt : raw.natAbs % DECIMALS_DIVISOR < 10 ^ 18 :=
    Nat.mod_lt _ hDpos
  have hm : raw.natAbs / DECIMALS_DIVISOR * 10 ^ 18 +
      raw.natAbs % DECIMALS_DIVISOR = raw.natAbs := by
    rw [Nat.mul_comm]
    exact Nat.div_add_mod raw.natAbs DECIMALS_DIVISOR
  have hstr : bigintToDecimalString raw =
      ⟨(if raw < 0 then ['-'] else []) ++
        ((natToDecimal (raw.natAbs / DECIMALS_DIVISOR)).data ++
          (if raw.natAbs % DECIMALS_DIVISOR = 0 then ([] : List Char)
           else '.' :: dropTrailingZerosL
             ((padStart18 (natToDecimal (raw.natAbs % DECIMALS_DIVISOR))).data)))⟩ := by
    have hdata := bigintToDecimalString_data raw
    cases hcase : bigintToDecimalString raw with
    | mk d =>
      rw [hcase] at hdata
      exact congrArg String.mk hdata
  rw [hstr]
  by_cases hneg : raw < 0
  · rw [if_pos hneg]
    rw [show (['-'] ++ ((natToDecimal (raw.natAbs / DECIMALS_DIVISOR)).data ++
        (if raw.natAbs % DECIMALS_DIVISOR = 0 then ([] : List Char)
         else '.' :: dropTrailingZerosL
           ((padStart18 (natToDecimal (raw.natAbs % DECIMALS_DIVISOR))).data)))) =
      '-' :: ((natToDecimal (raw.natAbs / DECIMALS_DIVISOR)).data ++
        (if raw.natAbs % DECIMALS_DIVISOR = 0 then ([] : List Char)
         else '.' :: dropTrailingZerosL
           ((padStart18 (natToDecimal (raw.natAbs % DECIMALS_DIVISOR))).data)))
      from rfl]
    rw [readDecimalString_neg_head, readMagnitude_print _ _ hfrac_lt, hm]
    have hne0 : raw.natAbs ≠ 0 := by omega
    simp only [Option.some_bind, if_neg hne0, Option.some.injEq]
    omega
  · rw [if_neg hneg, List.nil_append]
    obtain ⟨c, cs, hip⟩ :=
      List.exists_cons_of_ne_nil (natToDecimal_ne_nil (raw.natAbs / DECIMALS_DIVISOR))
    have hcdig : c.isDigit = true := by
      apply natToDecimal_isDigit
      rw [hip]
      simp
    have hcne : c ≠ '-' := by
      intro hc
      subst hc
      simp at hcdig
    rw [hip, List.cons_append]
    rw [readDecimalString_digit_head hcne]
    rw [← List.cons_append, ← hip, readMagnitude_print _ _ hfrac_lt, hm]
    have hcast : ((raw.natAbs : Nat) : Int) = raw := by omega
    exact congrArg some hcast

/-- C1: for every signed integer `raw`, `bigintToDecimalString raw` (with 18
fixed-point fractional digits) is the minimal decimal string for `raw`: the
strict minimal-form reader recovers exactly `raw` from it (unpadded integer
part, fraction present only when nonzero with its trailing zeros stripped,
leading "-" exactly on negatives, magnitude from the absolute value), and the
four example inputs print as "0", "1.5", "1" and "-0.25". -/
theorem C1_bigintToDecimalString_minimal :
    (∀ raw : Int, readDecimalString (bigintToDecimalString raw) = some raw) ∧
    (∀ raw : Int, raw < 0 ↔ (bigintToDecimalString raw).data.head? = some '-') ∧
    bigintToDecimalString 0 = "0" ∧
    bigintToDecimalString 1500000000000000000 = "1.5" ∧
    bigintToDecimalString 1000000000000000000 = "1" ∧
    bigintToDecimalString (-250000000000000000) = "-0.25" := by
  refine ⟨readDecimalString_bigintToDecimalString, ?_, by decide, by decide,
    by decide, by decide⟩
  intro raw
  rw [bigintToDecimalString_data raw]
  constructor
  · intro hneg
    rw [if_pos hneg]
    rfl
  · intro hhead
    by_contra hge
    rw [if_neg hge, List.nil_append] at hhead
    obtain ⟨c, cs, hip⟩ :=
      List.exists_cons_of_ne_nil (natToDecimal_ne_nil (raw.natAbs / DECIMALS_DIVISOR))
    have hcdig : c.isDigit = true := by
      apply natToDecimal_isDigit
      rw [hip]
      simp
    rw [hip, List.cons_append, List.head?_cons] at hhead
    have : c = '-' := by simpa using hhead
    subst this
    simp at hcdig

/-! ### JS primitives: lowercasing, insertion-ordered maps and sets -/

/-- `String.prototype.toLowerCase()` (character-wise lowering). -/
def toLowerCase (s : String) : String :=
  ⟨s.data.map Char.toLower⟩

/-- JS `Map` as an insertion-ordered association list: `set` updates an
existing key in place and appends a new key at the end. -/
def mapSet {V : Type} (m : List (String × V)) (k : String) (v : V) :
    List (String × V) :=
  match m with
  | [] => [(k, v)]
  | (k', v') :: rest =>
    if k' = k then (k, v) :: rest else (k', v') :: mapSet rest k v

/-- JS `Map.get` (first matching key). -/
def mapGet {V : Type} (m : List (String × V)) (k : String) : Option V :=
  match m with
  | [] => none
  | (k', v') :: rest => if k' = k then some v' else mapGet rest k

/-- JS `Set.add` on an insertion-ordered duplicate-free list. -/
def addChain (chains : List String) (c : String) : List String :=
  if c ∈ chains then chains else chains ++ [c]

/-- `CHAIN_NAMES[chainId] || `chain_${chainId}`` (lines 12, 138, 225). -/
def chainNameOf (cid : Nat) : String :=
  if cid = 1 then ("ethereum" : String)
  else if cid = 100 then ("gnosis" : String)
  else ("chain_" : String) ++ natToDecimal cid

/-! ### Windowed flow aggregation (export-summary.ts main, lines 222-261) -/

structure TransferRow where
  chainId : Nat
  blockTimestamp : Int
  from_ : String
  to_ : String
  value : Nat
deriving DecidableEq

structure FlowEntry where
  inflow : Nat
  outflow : Nat
  count : Nat
  chains : List String
deriving DecidableEq

def emptyFlowEntry : FlowEntry :=
  { inflow := 0, outflow := 0, count := 0, chains := [] }

/-- One iteration of the per-transfer loop for one window: skip transfers
before the cutoff, then credit the non-zero sender's outflow and the
non-zero receiver's inflow. -/
def flowStep (cutoff : Int) (flows : List (String × FlowEntry))
    (t : TransferRow) : List (String × FlowEntry) :=
  if t.blockTimestamp < cutoff then flows
  else
    let chainName := chainNameOf t.chainId
    let fromAddr := toLowerCase t.from_
    let toAddr := toLowerCase t.to_
    let m1 :=
      if fromAddr ≠ "" ∧ fromAddr ≠ ZERO then
        let entry := (mapGet flows fromAddr).getD emptyFlowEntry
        mapSet flows fromAddr
          { entry with
              outflow := entry.outflow + t.value
              count := entry.count + 1
              chains := addChain entry.chains chainName }
      else flows
    if toAddr ≠ "" ∧ toAddr ≠ ZERO then
      let entry := (mapGet m1 toAddr).getD emptyFlowEntry
      mapSet m1 toAddr
        { entry with
            inflow := entry.inflow + t.value
            count := entry.count + 1
            chains := addChain entry.chains chainName }
    else m1

def aggregateFlows (cutoff : Int) (ts : List TransferRow) :
    List (String × FlowEntry) :=
  ts.foldl (flowStep cutoff) []

def netOf (e : FlowEntry) : Int := (e.inflow : Int) - (e.outflow : Int)

/-- `const n = net(e); return n < 0n ? -n : n`. -/
def absNet (e : FlowEntry) : Int := if netOf e < 0 then -netOf e else netOf e

/-! ### JS `Array.prototype.sort`: a stable sort honouring the comparator.
`insertStable` keeps an earlier element before a later one whenever the
comparator does not strictly order them the other way. -/

def insertStable {α : Type} (le : α → α → Bool) (x : α) : List α → List α
  | [] => [x]
  | y :: ys => if le x y then x :: y :: ys else y :: insertStable le x ys

def sortStable {α : Type} (le : α → α → Bool) : List α → List α
  | [] => []
  | x :: xs => insertStable le x (sortStable le xs)

/-- The comparator of `buildTop`: `a` may stay before `b` iff
`|net b| ≤ |net a|` (comparator value ≤ 0). -/
def flowLe (a b : String × FlowEntry) : Bool := absNet b.2 ≤ absNet a.2

/-- The default JS string sort used on `[...entry.chains].sort()`. -/
def strLe (a b : String) : Bool := a ≤ b

structure TopRow where
  address : String
  inflow : String
  outflow : String
  net_flow : String
  transfer_count : Nat
  chains : List String
deriving DecidableEq

def topRowOf (p : String × FlowEntry) : TopRow :=
  { address := p.1
    inflow := bigintToDecimalString (p.2.inflow : Int)
    outflow := bigintToDecimalString (p.2.outflow : Int)
    net_flow := bigintToDecimalString (netOf p.2)
    transfer_count := p.2.count
    chains := sortStable strLe p.2.chains }

/-- `buildTop` (export-summary.ts, lines 264-281). -/
def buildTop (flows : List (String × FlowEntry)) : List TopRow :=
  ((sortStable flowLe flows).take TOP_N).map topRowOf

/-! ### Association-map lemmas -/

theorem mapGet_mapSet_self {V : Type} (m : List (String × V)) (k : String)
    (v : V) : mapGet (mapSet m k v) k = some v := by
  induction m with
  | nil => simp [mapSet, mapGet]
  | cons p rest ih =>
    obtain ⟨k', v'⟩ := p
    by_cases h : k' = k
    · simp [mapSet, mapGet, h]
    · simp [mapSet, mapGet, h, ih]

theorem mapGet_mapSet_ne {V : Type} (m : List (String × V)) {k a : String}
    (h : a ≠ k) (v : V) : mapGet (mapSet m k v) a = mapGet m a := by
  have hka : ¬ k = a := fun hh => h hh.symm
  induction m with
  | nil => simp [mapSet, mapGet, hka]
  | cons p rest ih =>
    obtain ⟨k', v'⟩ := p
    by_cases hk : k' = k
    · subst hk
      simp [mapSet, mapGet, hka]
    · by_cases ha : k' = a
      · subst ha
        simp [mapSet, mapGet, hk]
      · simp [mapSet, mapGet, hk, ha, ih]

theorem isSome_mapGet_mapSet {V : Type} (m : List (String × V)) (k a : String)
    (v : V) :
    (mapGet (mapSet m k v) a).isSome ↔ a = k ∨ (mapGet m a).isSome := by
  by_cases h : a = k
  · subst h
    simp [mapGet_mapSet_self]
  · rw [mapGet_mapSet_ne m h v]
    simp [h]

/-! ### Stable-sort lemmas -/

theorem mem_insertStable {α : Type} (le : α → α → Bool) (x : α) (l : List α)
    (a : α) : a ∈ insertStable le x l ↔ a = x ∨ a ∈ l := by
  induction l with
  | nil => simp [insertStable]
  | cons y ys ih =>
    by_cases h : le x y
    · simp [insertStable, h]
    · simp only [insertStable, if_neg h, List.mem_cons, ih]
      tauto

theorem mem_sortStable {α : Type} (le : α → α → Bool) (l : List α) (a : α) :
    a ∈ sortStable le l ↔ a ∈ l := by
  induction l with
  | nil => simp [sortStable]
  | cons x xs ih =>
    simp only [sortStable, mem_insertStable, List.mem_cons, ih]

theorem sortStable_eq_self {α : Type} {le : α → α → Bool} {l : List α}
    (h : l.Pairwise (fun a b => le a b = true)) : sortStable le l = l := by
  induction l with
  | nil => rfl
  | cons x xs ih =>
    obtain ⟨hx, hxs⟩ := List.pairwise_cons.mp h
    rw [sortStable, ih hxs]
    cases xs with
    | nil => rfl
    | cons y ys => rw [insertStable, if_pos (hx y (by simp))]

/-! ### C2: a self-transfer credits both sides of the same entry -/

/-- C2: a transfer inside the window whose lowercased sender equals its
lowercased receiver and is neither empty nor the zero address increases that
address's inflow and outflow both by `value`, leaving its net flow
(inflow minus outflow) unchanged, i.e. the transfer's net contribution is
zero. -/
theorem C2_self_transfer (cutoff : Int) (flows : List (String × FlowEntry))
    (t : TransferRow) (hself : toLowerCase t.to_ = toLowerCase t.from_)
    (hne : toLowerCase t.from_ ≠ ZERO) (hne' : toLowerCase t.from_ ≠ "")
    (hts : cutoff ≤ t.blockTimestamp) :
    ((mapGet (flowStep cutoff flows t) (toLowerCase t.from_)).getD
        emptyFlowEntry).inflow
      = ((mapGet flows (toLowerCase t.from_)).getD emptyFlowEntry).inflow
        + t.value ∧
    ((mapGet (flowStep cutoff flows t) (toLowerCase t.from_)).getD
        emptyFlowEntry).outflow
      = ((mapGet flows (toLowerCase t.from_)).getD emptyFlowEntry).outflow
        + t.value ∧
    netOf ((mapGet (flowStep cutoff flows t) (toLowerCase t.from_)).getD
        emptyFlowEntry)
      = netOf ((mapGet flows (toLowerCase t.from_)).getD emptyFlowEntry) := by
  have hlt : ¬ t.blockTimestamp < cutoff := not_lt.mpr hts
  have hcond : toLowerCase t.from_ ≠ "" ∧ toLowerCase t.from_ ≠ ZERO :=
    ⟨hne', hne⟩
  simp only [flowStep, if_neg hlt, hself, if_pos hcond,
    mapGet_mapSet_self, Option.getD_some]
  refine ⟨trivial, trivial, ?_⟩
  simp only [netOf]
  omega

theorem C2_self_transfer_witness :
    ((mapGet (flowStep 0 []
        (⟨1, 100, "0xAB", "0xab", 7⟩ : TransferRow))
        (toLowerCase ("0xAB" : String))).getD emptyFlowEntry).inflow
      = ((mapGet ([] : List (String × FlowEntry))
          (toLowerCase ("0xAB" : String))).getD emptyFlowEntry).inflow + 7 ∧
    ((mapGet (flowStep 0 []
        (⟨1, 100, "0xAB", "0xab", 7⟩ : TransferRow))
        (toLowerCase ("0xAB" : String))).getD emptyFlowEntry).outflow
      = ((mapGet ([] : List (String × FlowEntry))
          (toLowerCase ("0xAB" : String))).getD emptyFlowEntry).outflow + 7 ∧
    netOf ((mapGet (flowStep 0 []
        (⟨1, 100, "0xAB", "0xab", 7⟩ : TransferRow))
        (toLowerCase ("0xAB" : String))).getD emptyFlowEntry)
      = netOf ((mapGet ([] : List (String × FlowEntry))
          (toLowerCase ("0xAB" : String))).getD emptyFlowEntry) :=
  C2_self_transfer 0 [] (⟨1, 100, "0xAB", "0xab", 7⟩ : TransferRow)
    (by decide) (by decide) (by decide) (by decide)

/-! ### C4: ranking truncation and stability -/

/-- C4: on a flow map whose 60 distinct addresses have pairwise strictly
decreasing absolute net flow, `buildTop` returns exactly the first 50 entries
in that order (the 50 largest, descending); and on any map already in
nonincreasing absolute-net-flow order — ties laid out in insertion order —
the order is kept unchanged, so equal-magnitude entries keep the map's
insertion order and the output is deterministic for a fixed input
ordering. -/
theorem C4_buildTop_truncation (flows : List (String × FlowEntry))
    (hlen : flows.length = 60)
    (_hdist : flows.Pairwise (fun a b => a.1 ≠ b.1))
    (hdec : flows.Pairwise (fun a b => absNet b.2 < absNet a.2)) :
    (buildTop flows = (flows.take TOP_N).map topRowOf ∧
      (buildTop flows).length = TOP_N) ∧
    (∀ flows' : List (String × FlowEntry),
      flows'.Pairwise (fun a b => absNet b.2 ≤ absNet a.2) →
      buildTop flows' = (flows'.take TOP_N).map topRowOf) := by
  constructor
  · have hle : flows.Pairwise (fun a b => flowLe a b = true) := by
      refine hdec.imp ?_
      intro a b h
      simp only [flowLe, decide_eq_true_eq]
      omega
    rw [buildTop, sortStable_eq_self hle]
    refine ⟨rfl, ?_⟩
    simp [hlen, TOP_N]
  · intro flows' hsorted
    have hle : flows'.Pairwise (fun a b => flowLe a b = true) := by
      refine hsorted.imp ?_
      intro a b h
      simpa only [flowLe, decide_eq_true_eq] using h
    rw [buildTop, sortStable_eq_self hle]

def c4flows : List (String × FlowEntry) :=
  (List.range 60).map fun i =>
    (natToDecimal i, { inflow := 60 - i, outflow := 0, count := 1, chains := [] })

theorem C4_buildTop_truncation_witness :
    c4flows.length = 60 ∧
    c4flows.Pairwise (fun a b => a.1 ≠ b.1) ∧
    c4flows.Pairwise (fun a b => absNet b.2 < absNet a.2) ∧
    buildTop c4flows = (c4flows.take TOP_N).map topRowOf :=
  ⟨by decide, by decide, by decide,
    ((C4_buildTop_truncation c4flows (by decide) (by decide) (by decide)).1).1⟩

/-! ### C6: the 7-day map's keys are a subset of the 30-day map's keys -/

theorem mapGet_flowStep_isSome (c : Int) (m : List (String × FlowEntry))
    (t : TransferRow) (a : String) :
    (mapGet (flowStep c m t) a).isSome ↔
      (mapGet m a).isSome ∨
      (¬ t.blockTimestamp < c ∧
        ((a = toLowerCase t.from_ ∧ a ≠ "" ∧ a ≠ ZERO) ∨
         (a = toLowerCase t.to_ ∧ a ≠ "" ∧ a ≠ ZERO))) := by
  by_cases hts : t.blockTimestamp < c
  · simp [flowStep, hts]
  · simp only [flowStep, if_neg hts]
    by_cases hf : toLowerCase t.from_ ≠ "" ∧ toLowerCase t.from_ ≠ ZERO
    · by_cases ht : toLowerCase t.to_ ≠ "" ∧ toLowerCase t.to_ ≠ ZERO
      · simp only [if_pos hf, if_pos ht, isSome_mapGet_mapSet]
        constructor
        · rintro (rfl | rfl | hm)
          · exact Or.inr ⟨hts, Or.inr ⟨rfl, ht.1, ht.2⟩⟩
          · exact Or.inr ⟨hts, Or.inl ⟨rfl, hf.1, hf.2⟩⟩
          · exact Or.inl hm
        · rintro (hm | ⟨-, (⟨rfl, -, -⟩ | ⟨rfl, -, -⟩)⟩)
          · exact Or.inr (Or.inr hm)
          · exact Or.inr (Or.inl rfl)
          · exact Or.inl rfl
      · simp only [if_pos hf, if_neg ht, isSome_mapGet_mapSet]
        constructor
        · rintro (rfl | hm)
          · exact Or.inr ⟨hts, Or.inl ⟨rfl, hf.1, hf.2⟩⟩
          · exact Or.inl hm
        · rintro (hm | ⟨-, (⟨rfl, -, -⟩ | ⟨rfl, h1, h2⟩)⟩)
          · exact Or.inr hm
          · exact Or.inl rfl
          · exact absurd ⟨h1, h2⟩ ht
    · by_cases ht : toLowerCase t.to_ ≠ "" ∧ toLowerCase t.to_ ≠ ZERO
      · simp only [if_neg hf, if_pos ht, isSome_mapGet_mapSet]
        constructor
        · rintro (rfl | hm)
          · exact Or.inr ⟨hts, Or.inr ⟨rfl, ht.1, ht.2⟩⟩
          · exact Or.inl hm
        · rintro (hm | ⟨-, (⟨rfl, h1, h2⟩ | ⟨rfl, -, -⟩)⟩)
          · exact Or.inr hm
          · exact absurd ⟨h1, h2⟩ hf
          · exact Or.inl rfl
      · simp only [if_neg hf, if_neg ht]
        constructor
        · exact fun hm => Or.inl hm
        · rintro (hm | ⟨-, (⟨rfl, h1, h2⟩ | ⟨rfl, h1, h2⟩)⟩)
          · exact hm
          · exact absurd ⟨h1, h2⟩ hf
          · exact absurd ⟨h1, h2⟩ ht

theorem foldl_flowStep_keys_subset (c7 c30 : Int) (hc : c30 ≤ c7)
    (ts : List TransferRow) :
    ∀ m7 m30 : List (String × FlowEntry),
      (∀ a, (mapGet m7 a).isSome → (mapGet m30 a).isSome) →
      ∀ a, (mapGet (ts.foldl (flowStep c7) m7) a).isSome →
        (mapGet (ts.foldl (flowStep c30) m30) a).isSome := by
  induction ts with
  | nil => exact fun m7 m30 hinv a => hinv a
  | cons t rest ih =>
    intro m7 m30 hinv a h
    refine ih (flowStep c7 m7 t) (flowStep c30 m30 t) ?_ a h
    intro b hb
    rw [mapGet_flowStep_isSome] at hb ⊢
    rcases hb with hm | ⟨hts, hcase⟩
    · exact Or.inl (hinv b hm)
    · exact Or.inr ⟨by omega, hcase⟩

/-- C6: with the 30-day cutoff at or below the 7-day cutoff, every address
present in the 7-day flow map (all of which have nonzero count) is also
present in the 30-day flow map computed from the same retrieved transfers. -/
theorem C6_window_subset (ts : List TransferRow) (c7 c30 : Int)
    (hc : c30 ≤ c7) (a : String)
    (h7 : (mapGet (aggregateFlows c7 ts) a).isSome) :
    (mapGet (aggregateFlows c30 ts) a).isSome :=
  foldl_flowStep_keys_subset c7 c30 hc ts [] [] (fun _ h => h) a h7

theorem C6_window_subset_witness :
    ((0 : Int) ≤ 10) ∧
    (mapGet (aggregateFlows 10 [(⟨1, 50, "0xa", "0xb", 5⟩ : TransferRow)])
      ("0xa" : String)).isSome ∧
    (mapGet (aggregateFlows 0 [(⟨1, 50, "0xa", "0xb", 5⟩ : TransferRow)])
      ("0xa" : String)).isSome :=
  ⟨by decide, by decide,
    C6_window_subset [(⟨1, 50, "0xa", "0xb", 5⟩ : TransferRow)] 10 0
      (by decide) ("0xa" : String) (by decide)⟩

/-! ### Top-holder aggregation (fetchTopHolders, lines 103-164) -/

structure AccountRow where
  address : String
  chainId : Nat
  balance : Int
  transferCount : Nat
deriving DecidableEq

structure HolderEntry where
  balance : Int
  transferCount : Nat
  chains : List String
deriving DecidableEq

/-- The per-row merge of `fetchTopHolders`: sum balances and transfer
counts, union chain names, keyed by lowercased address. -/
def holderStep (m : List (String × HolderEntry)) (acct : AccountRow) :
    List (String × HolderEntry) :=
  let addr := toLowerCase acct.address
  let chainName := chainNameOf acct.chainId
  match mapGet m addr with
  | some existing =>
    mapSet m addr
      { balance := existing.balance + acct.balance
        transferCount := existing.transferCount + acct.transferCount
        chains := addChain existing.chains chainName }
  | none =>
    mapSet m addr
      { balance := acct.balance
        transferCount := acct.transferCount
        chains := [chainName] }

def mergeAccountRows (rows : List AccountRow) : List (String × HolderEntry) :=
  rows.foldl holderStep []

/-- The paginated while-loop of `fetchTopHolders`: each page's rows are
merged in order into the accumulated holder map. -/
def mergeAccountPages (pages : List (List AccountRow)) :
    List (String × HolderEntry) :=
  pages.foldl (fun m page => page.foldl holderStep m) []

/-- `b.balance > a.balance ? 1 : b.balance < a.balance ? -1 : 0`:
`a` may stay before `b` iff the comparator is not positive. -/
def holderLe (a b : String × HolderEntry) : Bool := b.2.balance ≤ a.2.balance

structure HolderRow where
  address : String
  balance : String
  transfer_count : Nat
  chains : List String
deriving DecidableEq

def holderRowOf (p : String × HolderEntry) : HolderRow :=
  { address := p.1
    balance := bigintToDecimalString p.2.balance
    transfer_count := p.2.transferCount
    chains := sortStable strLe p.2.chains }

/-- The ranking tail of `fetchTopHolders`: sort by summed balance
descending, truncate to `TOP_N`, format. -/
def rankHolders (m : List (String × HolderEntry)) : List HolderRow :=
  ((sortStable holderLe m).take TOP_N).map holderRowOf

theorem mergeAccountPages_flatten (pages : List (List AccountRow)) :
    mergeAccountPages pages = mergeAccountRows pages.flatten := by
  rw [mergeAccountPages, mergeAccountRows, List.foldl_flatten]

/-- C5: the top-holder merge is invariant under page boundaries — any two
ways of splitting the same sequence of Account rows into consecutive pages
(size 1, size 5000, or anything else) produce the same merged holder map,
hence identical per-address summed balances, summed transfer counts and
chain-name sets. -/
theorem C5_page_boundary_invariance (pages1 pages2 : List (List AccountRow))
    (h : pages1.flatten = pages2.flatten) :
    mergeAccountPages pages1 = mergeAccountPages pages2 := by
  rw [mergeAccountPages_flatten, mergeAccountPages_flatten, h]

theorem C5_page_boundary_invariance_witness :
    ([[(⟨"0xA", 1, 3, 2⟩ : AccountRow)], [(⟨"0xa", 100, 4, 5⟩ : AccountRow)]].flatten
      = [[(⟨"0xA", 1, 3, 2⟩ : AccountRow), (⟨"0xa", 100, 4, 5⟩ : AccountRow)]].flatten) ∧
    mergeAccountPages [[(⟨"0xA", 1, 3, 2⟩ : AccountRow)], [(⟨"0xa", 100, 4, 5⟩ : AccountRow)]]
      = mergeAccountPages [[(⟨"0xA", 1, 3, 2⟩ : AccountRow), (⟨"0xa", 100, 4, 5⟩ : AccountRow)]] :=
  ⟨by decide,
    C5_page_boundary_invariance
      [[(⟨"0xA", 1, 3, 2⟩ : AccountRow)], [(⟨"0xa", 100, 4, 5⟩ : AccountRow)]]
      [[(⟨"0xA", 1, 3, 2⟩ : AccountRow), (⟨"0xa", 100, 4, 5⟩ : AccountRow)]]
      (by decide)⟩

/-! ### The indexer's Transfer handler (src/EventHandlers.ts) -/

structure TransferEvent where
  chainId : Nat
  blockNumber : Nat
  blockTimestamp : Nat
  logIndex : Nat
  transactionHash : String
  from_ : String
  to_ : String
  value : Nat
deriving DecidableEq

structure TransferEnt where
  id : String
  chainId : Nat
  blockNumber : Nat
  blockTimestamp : Nat
  transactionHash : String
  logIndex : Nat
  from_ : String
  to_ : String
  value : Nat
deriving DecidableEq

structure AccountEnt where
  chainId : Nat
  address : String
  balance : Int
  transferCount : Nat
  lastUpdatedBlock : Nat
  lastUpdatedTimestamp : Nat
deriving DecidableEq

structure IndexerDB where
  transfers : List (String × TransferEnt)
  accounts : List (String × AccountEnt)
deriving DecidableEq

def emptyDB : IndexerDB := { transfers := [], accounts := [] }

def accountId (cid : Nat) (addr : String) : String :=
  natToDecimal cid ++ ("_" : String) ++ addr

def transferId (ev : TransferEvent) : String :=
  natToDecimal ev.chainId ++ ("_" : String) ++ natToDecimal ev.blockNumber ++
    ("_" : String) ++ natToDecimal ev.logIndex

/-- `GnoToken.Transfer.handler`: store the transfer entity, then update the
sender's and receiver's Account rows, skipping the zero address on either
side. -/
def handleTransfer (db : IndexerDB) (ev : TransferEvent) : IndexerDB :=
  let fromAddr := toLowerCase ev.from_
  let toAddr := toLowerCase ev.to_
  let db1 : IndexerDB :=
    { db with
        transfers := mapSet db.transfers (transferId ev)
          ⟨transferId ev, ev.chainId, ev.blockNumber, ev.blockTimestamp,
            ev.transactionHash, ev.logIndex, fromAddr, toAddr, ev.value⟩ }
  let db2 : IndexerDB :=
    if fromAddr ≠ ZERO then
      let fromId := accountId ev.chainId fromAddr
      let prev := mapGet db1.accounts fromId
      { db1 with
          accounts := mapSet db1.accounts fromId
            ⟨ev.chainId, fromAddr,
              ((prev.map (fun a => a.balance)).getD 0) - ev.value,
              ((prev.map (fun a => a.transferCount)).getD 0) + 1,
              ev.blockNumber, ev.blockTimestamp⟩ }
    else db1
  if toAddr ≠ ZERO then
    let toId := accountId ev.chainId toAddr
    let prev := mapGet db2.accounts toId
    { db2 with
        accounts := mapSet db2.accounts toId
          ⟨ev.chainId, toAddr,
            ((prev.map (fun a => a.balance)).getD 0) + ev.value,
            ((prev.map (fun a => a.transferCount)).getD 0) + 1,
            ev.blockNumber, ev.blockTimestamp⟩ }
  else db2

def ledgerTotal (accounts : List (String × AccountEnt)) : Int :=
  (accounts.map (fun p => p.2.balance)).sum

/-! ### Ledger-sum lemmas -/

theorem ledgerTotal_mapSet (m : List (String × AccountEnt)) (k : String)
    (v : AccountEnt) :
    ledgerTotal (mapSet m k v) =
      ledgerTotal m + v.balance - (((mapGet m k).map (fun a => a.balance)).getD 0) := by
  induction m with
  | nil => simp [mapSet, mapGet, ledgerTotal]
  | cons p rest ih =>
    obtain ⟨k', v'⟩ := p
    by_cases h : k' = k
    · subst h
      simp only [mapSet, if_pos rfl, mapGet]
      simp [ledgerTotal]
      ring
    · simp only [mapSet, if_neg h, mapGet]
      simp only [ledgerTotal, List.map_cons, List.sum_cons] at ih ⊢
      rw [ih]
      ring

theorem accountId_inj_addr {cid : Nat} {a b : String}
    (h : accountId cid a = accountId cid b) : a = b := by
  have hd := congrArg String.data h
  simp only [accountId, String.data_append] at hd
  have := List.append_cancel_left hd
  cases a with
  | mk da =>
    cases b with
    | mk db => exact congrArg String.mk this

/-- C9: the Transfer handler conserves total ledger balance — between two
distinct non-zero addresses the total over all Account rows is unchanged, a
mint (`from` = zero address) raises it by `value`, and a burn (`to` = zero
address) lowers it by `value`. -/
theorem C9_handler_conserves_balance (db : IndexerDB) (ev : TransferEvent) :
    (toLowerCase ev.from_ ≠ ZERO → toLowerCase ev.to_ ≠ ZERO →
      toLowerCase ev.from_ ≠ toLowerCase ev.to_ →
      ledgerTotal (handleTransfer db ev).accounts = ledgerTotal db.accounts) ∧
    (toLowerCase ev.from_ = ZERO → toLowerCase ev.to_ ≠ ZERO →
      ledgerTotal (handleTransfer db ev).accounts
        = ledgerTotal db.accounts + ev.value) ∧
    (toLowerCase ev.from_ ≠ ZERO → toLowerCase ev.to_ = ZERO →
      ledgerTotal (handleTransfer db ev).accounts
        = ledgerTotal db.accounts - ev.value) := by
  refine ⟨?_, ?_, ?_⟩
  · intro hf ht hne
    have hid : accountId ev.chainId (toLowerCase ev.to_)
        ≠ accountId ev.chainId (toLowerCase ev.from_) :=
      fun hh => hne (accountId_inj_addr hh).symm
    simp only [handleTransfer, if_pos hf, if_pos ht]
    rw [ledgerTotal_mapSet, mapGet_mapSet_ne _ hid, ledgerTotal_mapSet]
    push_cast
    ring
  · intro hf ht
    simp only [handleTransfer, hf, if_pos ht]
    rw [if_neg (by simp [hf])]
    rw [ledgerTotal_mapSet]
    push_cast
    ring
  · intro hf ht
    simp only [handleTransfer, ht, if_pos hf]
    rw [if_neg (by simp [ht])]
    rw [ledgerTotal_mapSet]
    push_cast
    ring

theorem C9_handler_conserves_balance_witness :
    (ledgerTotal (handleTransfer emptyDB
        (⟨1, 5, 99, 0, "h", "0xa", "0xb", 42⟩ : TransferEvent)).accounts
      = ledgerTotal emptyDB.accounts) ∧
    (ledgerTotal (handleTransfer emptyDB
        (⟨1, 5, 99, 0, "h",
          "0x0000000000000000000000000000000000000000", "0xb", 42⟩
          : TransferEvent)).accounts
      = ledgerTotal emptyDB.accounts + 42) ∧
    (ledgerTotal (handleTransfer emptyDB
        (⟨1, 5, 99, 0, "h", "0xa",
          "0x0000000000000000000000000000000000000000", 42⟩
          : TransferEvent)).accounts
      = ledgerTotal emptyDB.accounts - 42) :=
  ⟨(C9_handler_conserves_balance emptyDB
      (⟨1, 5, 99, 0, "h", "0xa", "0xb", 42⟩ : TransferEvent)).1
      (by decide) (by decide) (by decide),
    (C9_handler_conserves_balance emptyDB
      (⟨1, 5, 99, 0, "h",
        "0x0000000000000000000000000000000000000000", "0xb", 42⟩
        : TransferEvent)).2.1 (by decide) (by decide),
    (C9_handler_conserves_balance emptyDB
      (⟨1, 5, 99, 0, "h", "0xa",
        "0x0000000000000000000000000000000000000000", 42⟩
        : TransferEvent)).2.2 (by decide) (by decide)⟩

/-! ### Lowercasing is idempotent (stored addresses are already canonical) -/

theorem toLower_toLower (c : Char) : c.toLower.toLower = c.toLower := by
  simp only [Char.toLower]
  by_cases h : c.toNat ≥ 65 ∧ c.toNat ≤ 90
  · rw [if_pos h]
    have hvalid : (c.toNat + 32).isValidChar := Or.inl (by omega)
    have hval : (Char.ofNat (c.toNat + 32)).toNat = c.toNat + 32 := by
      rw [Char.ofNat, dif_pos hvalid]
      rfl
    rw [if_neg]
    rw [hval]
    omega
  · rw [if_neg h, if_neg h]

theorem toLowerCase_idem (s : String) :
    toLowerCase (toLowerCase s) = toLowerCase s := by
  show String.mk ((s.data.map Char.toLower).map Char.toLower)
    = String.mk (s.data.map Char.toLower)
  congr 1
  rw [List.map_map]
  apply List.map_congr_left
  intro a _
  exact toLower_toLower a

/-! ### Membership facts for map insertion, ranking and the handler -/

theorem mem_mapSet {V : Type} {m : List (String × V)} {k : String} {v : V}
    {p : String × V} (h : p ∈ mapSet m k v) : p ∈ m ∨ p = (k, v) := by
  induction m with
  | nil =>
    simp only [mapSet, List.mem_singleton] at h
    exact Or.inr h
  | cons q rest ih =>
    obtain ⟨k', v'⟩ := q
    by_cases hk : k' = k
    · rw [mapSet, if_pos hk] at h
      rcases List.mem_cons.mp h with h1 | h1
      · exact Or.inr h1
      · exact Or.inl (List.mem_cons_of_mem _ h1)
    · rw [mapSet, if_neg hk] at h
      rcases List.mem_cons.mp h with h1 | h1
      · exact Or.inl (h1 ▸ List.mem_cons_self _ _)
      · rcases ih h1 with h2 | h2
        · exact Or.inl (List.mem_cons_of_mem _ h2)
        · exact Or.inr h2

theorem flowStep_keys_ne_ZERO {c : Int} {m : List (String × FlowEntry)}
    {t : TransferRow} (hm : ∀ p ∈ m, p.1 ≠ ZERO) :
    ∀ p ∈ flowStep c m t, p.1 ≠ ZERO := by
  intro p hp
  simp only [flowStep] at hp
  by_cases hts : t.blockTimestamp < c
  · rw [if_pos hts] at hp
    exact hm p hp
  · rw [if_neg hts] at hp
    by_cases hf : toLowerCase t.from_ ≠ "" ∧ toLowerCase t.from_ ≠ ZERO <;>
      by_cases ht : toLowerCase t.to_ ≠ "" ∧ toLowerCase t.to_ ≠ ZERO
    · rw [if_pos hf, if_pos ht] at hp
      rcases mem_mapSet hp with h1 | h1
      · rcases mem_mapSet h1 with h2 | h2
        · exact hm p h2
        · rw [h2]
          exact hf.2
      · rw [h1]
        exact ht.2
    · rw [if_pos hf, if_neg ht] at hp
      rcases mem_mapSet hp with h1 | h1
      · exact hm p h1
      · rw [h1]
        exact hf.2
    · rw [if_neg hf, if_pos ht] at hp
      rcases mem_mapSet hp with h1 | h1
      · exact hm p h1
      · rw [h1]
        exact ht.2
    · rw [if_neg hf, if_neg ht] at hp
      exact hm p hp

theorem aggregateFlows_keys_ne_ZERO (c : Int) (ts : List TransferRow) :
    ∀ p ∈ aggregateFlows c ts, p.1 ≠ ZERO := by
  suffices h : ∀ m, (∀ p ∈ m, p.1 ≠ ZERO) →
      ∀ p ∈ ts.foldl (flowStep c) m, p.1 ≠ ZERO by
    exact h [] (by simp)
  induction ts with
  | nil => exact fun m hm => hm
  | cons t rest ih =>
    intro m hm
    exact ih _ (flowStep_keys_ne_ZERO hm)

theorem mem_buildTop {flows : List (String × FlowEntry)} {r : TopRow}
    (h : r ∈ buildTop flows) : ∃ p ∈ flows, r = topRowOf p := by
  rw [buildTop] at h
  obtain ⟨p, hp, hr⟩ := List.mem_map.mp h
  exact ⟨p, (mem_sortStable _ _ _).mp (List.mem_of_mem_take hp), hr.symm⟩

theorem handleTransfer_accounts_inv {db : IndexerDB} {ev : TransferEvent}
    (hdb : ∀ p ∈ db.accounts,
      p.2.address ≠ ZERO ∧ toLowerCase p.2.address = p.2.address) :
    ∀ p ∈ (handleTransfer db ev).accounts,
      p.2.address ≠ ZERO ∧ toLowerCase p.2.address = p.2.address := by
  intro p hp
  simp only [handleTransfer] at hp
  by_cases hf : toLowerCase ev.from_ ≠ ZERO <;>
    by_cases ht : toLowerCase ev.to_ ≠ ZERO
  · rw [if_pos hf, if_pos ht] at hp
    simp only [] at hp
    rcases mem_mapSet hp with h1 | h1
    · rcases mem_mapSet h1 with h2 | h2
      · exact hdb p h2
      · rw [h2]
        exact ⟨hf, toLowerCase_idem ev.from_⟩
    · rw [h1]
      exact ⟨ht, toLowerCase_idem ev.to_⟩
  · rw [if_pos hf, if_neg ht] at hp
    simp only [] at hp
    rcases mem_mapSet hp with h1 | h1
    · exact hdb p h1
    · rw [h1]
      exact ⟨hf, toLowerCase_idem ev.from_⟩
  · rw [if_neg hf, if_pos ht] at hp
    simp only [] at hp
    rcases mem_mapSet hp with h1 | h1
    · exact hdb p h1
    · rw [h1]
      exact ⟨ht, toLowerCase_idem ev.to_⟩
  · rw [if_neg hf, if_neg ht] at hp
    exact hdb p hp

theorem foldl_handleTransfer_accounts_inv (evs : List TransferEvent) :
    ∀ p ∈ (evs.foldl handleTransfer emptyDB).accounts,
      p.2.address ≠ ZERO ∧ toLowerCase p.2.address = p.2.address := by
  suffices h : ∀ db, (∀ p ∈ db.accounts,
      p.2.address ≠ ZERO ∧ toLowerCase p.2.address = p.2.address) →
      ∀ p ∈ (evs.foldl handleTransfer db).accounts,
        p.2.address ≠ ZERO ∧ toLowerCase p.2.address = p.2.address by
    exact h emptyDB (by simp [emptyDB])
  induction evs with
  | nil => exact fun db hdb => hdb
  | cons ev rest ih =>
    intro db hdb
    exact ih _ (handleTransfer_accounts_inv hdb)

/-! ### The rows the store serves to `fetchTopHolders` -/

def accountRowOf (a : AccountEnt) : AccountRow :=
  ⟨a.address, a.chainId, a.balance, a.transferCount⟩

/-- The result set of `TopAccounts` (filter `balance > 0`) over the
handler-maintained ledger. -/
def storeRowsOf (db : IndexerDB) : List AccountRow :=
  (db.accounts.map (fun p => accountRowOf p.2)).filter (fun r => 0 < r.balance)

theorem holderStep_keys_ne_ZERO {m : List (String × HolderEntry)}
    {acct : AccountRow} (hm : ∀ p ∈ m, p.1 ≠ ZERO)
    (ha : toLowerCase acct.address ≠ ZERO) :
    ∀ p ∈ holderStep m acct, p.1 ≠ ZERO := by
  intro p hp
  simp only [holderStep] at hp
  cases hg : mapGet m (toLowerCase acct.address) with
  | some e =>
    rw [hg] at hp
    rcases mem_mapSet hp with h1 | h1
    · exact hm p h1
    · rw [h1]
      exact ha
  | none =>
    rw [hg] at hp
    rcases mem_mapSet hp with h1 | h1
    · exact hm p h1
    · rw [h1]
      exact ha

theorem mergeAccountRows_keys_ne_ZERO {rows : List AccountRow}
    (h : ∀ r ∈ rows, toLowerCase r.address ≠ ZERO) :
    ∀ p ∈ mergeAccountRows rows, p.1 ≠ ZERO := by
  suffices hs : ∀ (l : List AccountRow) (m : List (String × HolderEntry)),
      (∀ r ∈ l, toLowerCase r.address ≠ ZERO) → (∀ p ∈ m, p.1 ≠ ZERO) →
      ∀ p ∈ l.foldl holderStep m, p.1 ≠ ZERO by
    exact hs rows [] h (by simp)
  intro l
  induction l with
  | nil => exact fun m _ hm => hm
  | cons r rest ih =>
    intro m hl hm
    exact ih _ (fun x hx => hl x (List.mem_cons_of_mem _ hx))
      (holderStep_keys_ne_ZERO hm (hl r (List.mem_cons_self _ _)))

theorem mem_rankHolders {m : List (String × HolderEntry)} {r : HolderRow}
    (h : r ∈ rankHolders m) : ∃ p ∈ m, r = holderRowOf p := by
  rw [rankHolders] at h
  obtain ⟨p, hp, hr⟩ := List.mem_map.mp h
  exact ⟨p, (mem_sortStable _ _ _).mp (List.mem_of_mem_take hp), hr.symm⟩

/-- C3: the zero address never appears — for any inputs, every key of a flow
map is non-zero, every row of a flow ranking has a non-zero address, the
Transfer handler never creates or updates an Account row for the zero
address, and the top-holder ranking computed from the handler-maintained
ledger contains no zero address. -/
theorem C3_zero_address_excluded (cutoff : Int) (ts : List TransferRow)
    (evs : List TransferEvent) :
    (∀ p ∈ aggregateFlows cutoff ts, p.1 ≠ ZERO) ∧
    (∀ r ∈ buildTop (aggregateFlows cutoff ts), r.address ≠ ZERO) ∧
    (∀ p ∈ (evs.foldl handleTransfer emptyDB).accounts, p.2.address ≠ ZERO) ∧
    (∀ h ∈ rankHolders (mergeAccountRows
        (storeRowsOf (evs.foldl handleTransfer emptyDB))), h.address ≠ ZERO) := by
  refine ⟨aggregateFlows_keys_ne_ZERO cutoff ts, ?_, ?_, ?_⟩
  · intro r hr
    obtain ⟨p, hp, hrow⟩ := mem_buildTop hr
    rw [hrow]
    exact aggregateFlows_keys_ne_ZERO cutoff ts p hp
  · exact fun p hp => (foldl_handleTransfer_accounts_inv evs p hp).1
  · intro h hh
    obtain ⟨p, hp, hrow⟩ := mem_rankHolders hh
    rw [hrow]
    refine mergeAccountRows_keys_ne_ZERO ?_ p hp
    intro r hrr
    rw [storeRowsOf] at hrr
    have hrr' := List.mem_of_mem_filter hrr
    obtain ⟨q, hq, hqr⟩ := List.mem_map.mp hrr'
    have hinv := foldl_handleTransfer_accounts_inv evs q hq
    rw [← hqr]
    show toLowerCase (accountRowOf q.2).address ≠ ZERO
    show toLowerCase q.2.address ≠ ZERO
    rw [hinv.2]
    exact hinv.1

theorem C3_zero_address_excluded_witness :
    ("0xa", (⟨0, 2000000000000000000, 1, [("ethereum" : String)]⟩ : FlowEntry)).1
      ≠ ZERO ∧
    (⟨"0xa", "0", "2", "-2", 1, [("ethereum" : String)]⟩ : TopRow).address
      ≠ ZERO ∧
    ("100_0xa",
      (⟨100, "0xa", -2000000000000000000, 1, 7, 77⟩ : AccountEnt)).2.address
      ≠ ZERO ∧
    (⟨"0xb", "2", 1, [("gnosis" : String)]⟩ : HolderRow).address ≠ ZERO := by
  obtain ⟨h1, h2, h3, h4⟩ := C3_zero_address_excluded 0
    [(⟨1, 5, "0xa", "0xb", 2000000000000000000⟩ : TransferRow)]
    [(⟨100, 7, 77, 0, "h", "0xA", "0xB", 2000000000000000000⟩ : TransferEvent)]
  exact ⟨h1 _ (by decide), h2 _ (by decide), h3 _ (by decide), h4 _ (by decide)⟩

/-! ### Balance enrichment (fetchBalances, lines 70-101; addBalances, 298-305) -/

/-- Per returned Account row: sum into the lower-cased address's entry. -/
def balanceStep (m : List (String × Int)) (acct : AccountRow) :
    List (String × Int) :=
  let addr := toLowerCase acct.address
  mapSet m addr (((mapGet m addr).getD 0) + acct.balance)

def mergeBalances (accounts : List AccountRow) : List (String × Int) :=
  accounts.foldl balanceStep []

structure TopRowBal extends TopRow where
  balance : String
deriving DecidableEq

/-- `addBalances`: spread each row and attach
`bigintToDecimalString(balances.get(r.address) || 0n)`. -/
def addBalances (balances : List (String × Int)) (rows : List TopRow) :
    List TopRowBal :=
  rows.map fun r =>
    { toTopRow := r
      balance := bigintToDecimalString ((mapGet balances r.address).getD 0) }

theorem mapGet_foldl_balanceStep (l : List AccountRow)
    (m : List (String × Int)) (addr : String)
    (h : addr ∉ l.map (fun a => toLowerCase a.address)) :
    mapGet (l.foldl balanceStep m) addr = mapGet m addr := by
  induction l generalizing m with
  | nil => rfl
  | cons a rest ih =>
    simp only [List.map_cons, List.mem_cons, not_or] at h
    rw [List.foldl_cons, ih _ (fun hc => h.2 hc), balanceStep,
      mapGet_mapSet_ne _ h.1]

theorem mapGet_mergeBalances_none (accounts : List AccountRow) (addr : String)
    (h : addr ∉ accounts.map (fun a => toLowerCase a.address)) :
    mapGet (mergeBalances accounts) addr = none :=
  mapGet_foldl_balanceStep accounts [] addr h

/-- C8: an address in a flow ranking for which the store returned no
Account row gets an explicit balance field `"0"` in the composed rows:
`fetchBalances` keys its map only by the returned rows' lowercased
addresses, and `addBalances` defaults an absent entry to zero, printed as
`"0"`. -/
theorem C8_missing_balance_defaults_zero (accounts : List AccountRow)
    (rows : List TopRow) (r : TopRow) (hr : r ∈ rows)
    (habs : r.address ∉ accounts.map (fun a => toLowerCase a.address)) :
    mapGet (mergeBalances accounts) r.address = none ∧
    ({ toTopRow := r, balance := ("0" : String) } : TopRowBal)
      ∈ addBalances (mergeBalances accounts) rows := by
  have hnone := mapGet_mergeBalances_none accounts r.address habs
  refine ⟨hnone, ?_⟩
  rw [addBalances]
  refine List.mem_map.mpr ⟨r, hr, ?_⟩
  rw [hnone]
  rfl

theorem C8_missing_balance_defaults_zero_witness :
    ((⟨"0xa", "0", "2", "-2", 1, [("ethereum" : String)]⟩ : TopRow)
      ∈ [(⟨"0xa", "0", "2", "-2", 1, [("ethereum" : String)]⟩ : TopRow)]) ∧
    (("0xa" : String)
      ∉ [(⟨"0xC", 1, 5, 1⟩ : AccountRow)].map (fun a => toLowerCase a.address)) ∧
    mapGet (mergeBalances [(⟨"0xC", 1, 5, 1⟩ : AccountRow)]) ("0xa" : String)
      = none ∧
    ({ toTopRow := (⟨"0xa", "0", "2", "-2", 1, [("ethereum" : String)]⟩ : TopRow),
        balance := ("0" : String) } : TopRowBal)
      ∈ addBalances (mergeBalances [(⟨"0xC", 1, 5, 1⟩ : AccountRow)])
          [(⟨"0xa", "0", "2", "-2", 1, [("ethereum" : String)]⟩ : TopRow)] := by
  have h := C8_missing_balance_defaults_zero
    [(⟨"0xC", 1, 5, 1⟩ : AccountRow)]
    [(⟨"0xa", "0", "2", "-2", 1, [("ethereum" : String)]⟩ : TopRow)]
    (⟨"0xa", "0", "2", "-2", 1, [("ethereum" : String)]⟩ : TopRow)
    (by decide) (by decide)
  exact ⟨by decide, by decide, h.1, h.2⟩

/-! ### C10: unknown chain ids fall back to `chain_{id}` -/

theorem mem_addChain_self (l : List String) (c : String) : c ∈ addChain l c := by
  rw [addChain]
  by_cases h : c ∈ l
  · rwa [if_pos h]
  · rw [if_neg h]
    simp

theorem mem_addChain_of_mem {l : List String} {x : String} (c : String)
    (h : x ∈ l) : x ∈ addChain l c := by
  rw [addChain]
  by_cases hc : c ∈ l
  · rwa [if_pos hc]
  · rw [if_neg hc]
    exact List.mem_append.mpr (Or.inl h)

/-- C10: a chain id other than 1 and 100 never makes aggregation fail — the
name lookup totalizes via the `chain_{id}` fallback (every aggregation
function here is total on such rows), that fallback name lands in the flow
entry's and holder entry's chain sets, and sorting the set for output
preserves membership. -/
theorem C10_chain_fallback (cid : Nat) (h1 : cid ≠ 1) (h100 : cid ≠ 100) :
    (chainNameOf cid = ("chain_" : String) ++ natToDecimal cid) ∧
    (∀ (c : Int) (m : List (String × FlowEntry)) (t : TransferRow),
      t.chainId = cid → ¬ t.blockTimestamp < c →
      toLowerCase t.from_ ≠ "" → toLowerCase t.from_ ≠ ZERO →
      (("chain_" : String) ++ natToDecimal cid) ∈
        ((mapGet (flowStep c m t) (toLowerCase t.from_)).getD
          emptyFlowEntry).chains) ∧
    (∀ (m : List (String × HolderEntry)) (acct : AccountRow),
      acct.chainId = cid →
      (("chain_" : String) ++ natToDecimal cid) ∈
        ((mapGet (holderStep m acct) (toLowerCase acct.address)).getD
          (⟨0, 0, []⟩ : HolderEntry)).chains) ∧
    (∀ (l : List String) (x : String), x ∈ l → x ∈ sortStable strLe l) := by
  have hname : chainNameOf cid = ("chain_" : String) ++ natToDecimal cid := by
    rw [chainNameOf, if_neg h1, if_neg h100]
  refine ⟨hname, ?_, ?_, ?_⟩
  · intro c m t hcid hts hne' hne
    subst hcid
    simp only [flowStep, if_neg hts, if_pos (And.intro hne' hne)]
    by_cases ht : toLowerCase t.to_ ≠ "" ∧ toLowerCase t.to_ ≠ ZERO
    · rw [if_pos ht]
      by_cases heq : toLowerCase t.to_ = toLowerCase t.from_
      · rw [heq, mapGet_mapSet_self, mapGet_mapSet_self, Option.getD_some]
        refine mem_addChain_of_mem _ ?_
        rw [← hname]
        exact mem_addChain_self _ _
      · rw [mapGet_mapSet_ne _ (fun hh => heq hh.symm), mapGet_mapSet_self,
          Option.getD_some]
        rw [← hname]
        exact mem_addChain_self _ _
    · rw [if_neg ht, mapGet_mapSet_self, Option.getD_some]
      rw [← hname]
      exact mem_addChain_self _ _
  · intro m acct hcid
    subst hcid
    simp only [holderStep]
    cases hg : mapGet m (toLowerCase acct.address) with
    | some e =>
      rw [mapGet_mapSet_self, Option.getD_some]
      rw [← hname]
      exact mem_addChain_self _ _
    | none =>
      rw [mapGet_mapSet_self, Option.getD_some]
      rw [← hname]
      simp
  · intro l x hx
    exact (mem_sortStable strLe l x).mpr hx

theorem C10_chain_fallback_witness :
    (chainNameOf 5 = ("chain_" : String) ++ natToDecimal 5) ∧
    ((("chain_" : String) ++ natToDecimal 5) ∈
      ((mapGet (flowStep 0 [] (⟨5, 3, "0xa", "0xb", 1⟩ : TransferRow))
        (toLowerCase ("0xa" : String))).getD emptyFlowEntry).chains) ∧
    ((("chain_" : String) ++ natToDecimal 5) ∈
      ((mapGet (holderStep [] (⟨"0xd", 5, 1, 1⟩ : AccountRow))
        (toLowerCase ("0xd" : String))).getD (⟨0, 0, []⟩ : HolderEntry)).chains) ∧
    (("x" : String) ∈ sortStable strLe [("x" : String)]) := by
  obtain ⟨ha, hb, hc, hd⟩ := C10_chain_fallback 5 (by decide) (by decide)
  exact ⟨ha, hb 0 [] (⟨5, 3, "0xa", "0xb", 1⟩ : TransferRow) (by decide)
      (by decide) (by decide) (by decide),
    hc [] (⟨"0xd", 5, 1, 1⟩ : AccountRow) (by decide),
    hd [("x" : String)] ("x" : String) (by decide)⟩

/-! ### C7: the run writes the document exactly when every store query
succeeds.  Network effects are shallow-embedded: each store interaction is
an oracle-supplied `StoreReply`, `graphqlQuery` maps it through the same
ok/errors checks as the source, and the whole of `main` becomes an
`Except`-valued pipeline whose single terminal `.ok` is the one
`writeFileSync`. -/

inductive StoreReply (α : Type) where
  | netError (msg : String)
  | http (ok : Bool) (status : Nat) (statusText : String)
      (gqlErrors : Option String) (data : α)

/-- `graphqlQuery` (lines 29-50): a rejected fetch propagates, a non-2xx
response throws `GraphQL error: …`, a store-reported error list throws
`GraphQL errors: …`, otherwise the data is returned. -/
def graphqlQuery {α : Type} (r : StoreReply α) : Except String α :=
  match r with
  | .netError m => .error m
  | .http ok status statusText gqlErrors data =>
    if ¬ ok then
      .error (("GraphQL error: " : String) ++ natToDecimal status
        ++ (" " : String) ++ statusText)
    else
      match gqlErrors with
      | some errs => .error (("GraphQL errors: " : String) ++ errs)
      | none => .ok data

/-- The transfer pagination loop: accumulate pages until a short page; any
failing query aborts the whole loop.  An exhausted oracle stands for a
store whose next page is empty. -/
def fetchPaged {ρ : Type} (limit : Nat) :
    List (StoreReply (List ρ)) → Except String (List ρ)
  | [] => .ok []
  | p :: rest =>
    match graphqlQuery p with
    | .error e => .error e
    | .ok batch =>
      if batch.length < limit then .ok batch
      else
        match fetchPaged limit rest with
        | .error e => .error e
        | .ok more => .ok (batch ++ more)

/-- The batch loop of `fetchBalances`, merging each returned page into the
accumulated balance map. -/
def balLoop (oracle : List String → StoreReply (List AccountRow)) :
    List (List String) → List (String × Int) →
      Except String (List (String × Int))
  | [], m => .ok m
  | b :: rest, m =>
    match graphqlQuery (oracle b) with
    | .error e => .error e
    | .ok rows => balLoop oracle rest (rows.foldl balanceStep m)

/-- `addresses.slice(i, i + batchSize)` chunking (fuel-based). -/
def chunksAux (n : Nat) : Nat → List String → List (List String)
  | 0, _ => []
  | fuel + 1, l =>
    if l = [] then [] else l.take n :: chunksAux n fuel (l.drop n)

def chunksOf (n : Nat) (l : List String) : List (List String) :=
  chunksAux n l.length l

def fetchBalancesM (oracle : List String → StoreReply (List AccountRow))
    (addresses : List String) : Except String (List (String × Int)) :=
  balLoop oracle (chunksOf 500 addresses) []

/-- The pagination loop of `fetchTopHolders`. -/
def holderLoop : List (StoreReply (List AccountRow)) →
    List (String × HolderEntry) →
      Except String (List (String × HolderEntry))
  | [], m => .ok m
  | p :: rest, m =>
    match graphqlQuery p with
    | .error e => .error e
    | .ok accounts =>
      if accounts.length < 5000 then .ok (accounts.foldl holderStep m)
      else holderLoop rest (accounts.foldl holderStep m)

def fetchTopHoldersM (pages : List (StoreReply (List AccountRow))) :
    Except String (List HolderRow) :=
  match holderLoop pages [] with
  | .error e => .error e
  | .ok m => .ok (rankHolders m)

/-- The label file load: lowercase the keys, or an empty map when the read
or parse throws. -/
def lowerLabels (raw : List (String × String)) : List (String × String) :=
  raw.map fun p => (toLowerCase p.1, p.2)

/-- `new Set([...top7d, ...top30d] addresses)` in insertion order. -/
def addressesOf (top7 top30 : List TopRow) : List String :=
  (top7.map (fun r => r.address) ++ top30.map (fun r => r.address)).foldl
    addChain []

structure StoreOracle where
  transferPages : List (StoreReply (List TransferRow))
  countReply : StoreReply Nat
  balanceOracle : List String → StoreReply (List AccountRow)
  holderPages : List (StoreReply (List AccountRow))
  labelsReply : Except Unit (List (String × String))
  now : Int

/-- The output document (the generation timestamp is wall-clock noise and
carries no data; it is left out of the model). -/
structure Summary where
  top_7d : List TopRowBal
  top_30d : List TopRowBal
  top_holders : List HolderRow
  labels : List (String × String)
  total_transfers : Nat
deriving DecidableEq

def top7dOf (o : StoreOracle) (ts : List TransferRow) : List TopRow :=
  buildTop (aggregateFlows (o.now - 7 * 86400) ts)

def top30dOf (o : StoreOracle) (ts : List TransferRow) : List TopRow :=
  buildTop (aggregateFlows (o.now - 30 * 86400) ts)

/-- The balance query `main` issues for the union of ranked addresses. -/
def balancesFor (o : StoreOracle) (ts : List TransferRow) :
    Except String (List (String × Int)) :=
  fetchBalancesM o.balanceOracle (addressesOf (top7dOf o ts) (top30dOf o ts))

/-- `main` (lines 167-337): fetch the 30-day transfer superset, the total
count, derive both rankings, fetch balances and holders, read labels
(recoverable), and only then build the document. -/
def runMain (o : StoreOracle) : Except String Summary :=
  match fetchPaged 10000 o.transferPages with
  | .error e => .error e
  | .ok allTransfers =>
    match graphqlQuery o.countReply with
    | .error e => .error e
    | .ok totalTransfers =>
      match balancesFor o allTransfers with
      | .error e => .error e
      | .ok balances =>
        match fetchTopHoldersM o.holderPages with
        | .error e => .error e
        | .ok topHolders =>
          .ok
            { top_7d := addBalances balances (top7dOf o allTransfers)
              top_30d := addBalances balances (top30dOf o allTransfers)
              top_holders := topHolders
              labels :=
                match o.labelsReply with
                | .ok raw => lowerLabels raw
                | .error _ => []
              total_transfers := totalTransfers }

/-- The single `writeFileSync` at the very end of a successful run. -/
def runWrites (o : StoreOracle) : List Summary :=
  match runMain o with
  | .ok s => [s]
  | .error _ => []

/-- All store queries the run issues succeed. -/
def storeQueriesOk (o : StoreOracle) : Prop :=
  (fetchPaged 10000 o.transferPages).isOk ∧
  (graphqlQuery o.countReply).isOk ∧
  (∀ ts, fetchPaged 10000 o.transferPages = .ok ts →
    (balancesFor o ts).isOk) ∧
  (fetchTopHoldersM o.holderPages).isOk

theorem exceptIsOk_ok {ε α : Type} (a : α) :
    (Except.ok a : Except ε α).isOk = true := rfl

theorem exceptIsOk_error {ε α : Type} (e : ε) :
    (Except.error e : Except ε α).isOk = false := rfl

def setLabelsFail (o : StoreOracle) : StoreOracle :=
  { o with labelsReply := .error () }

theorem runMain_ok_iff (o : StoreOracle) :
    (runMain o).isOk ↔ storeQueriesOk o := by
  cases h1 : fetchPaged 10000 o.transferPages with
  | error e =>
    simp [runMain, h1, storeQueriesOk, exceptIsOk_ok, exceptIsOk_error]
  | ok ts =>
    cases h2 : graphqlQuery o.countReply with
    | error e =>
      simp [runMain, h1, h2, storeQueriesOk, exceptIsOk_ok, exceptIsOk_error]
    | ok cnt =>
      cases h3 : balancesFor o ts with
      | error e =>
        simp [runMain, h1, h2, h3, storeQueriesOk, exceptIsOk_ok,
          exceptIsOk_error]
      | ok balances =>
        cases h4 : fetchTopHoldersM o.holderPages with
        | error e =>
          simp [runMain, h1, h2, h3, h4, storeQueriesOk, exceptIsOk_ok,
            exceptIsOk_error]
        | ok holders =>
          simp [runMain, h1, h2, h3, h4, storeQueriesOk, exceptIsOk_ok,
            exceptIsOk_error]

theorem runMain_setLabelsFail (o : StoreOracle) :
    runMain (setLabelsFail o)
      = (runMain o).map (fun s => { s with labels := [] }) := by
  have hts : (setLabelsFail o).transferPages = o.transferPages := rfl
  have hcnt : (setLabelsFail o).countReply = o.countReply := rfl
  have hbal : (setLabelsFail o).balanceOracle = o.balanceOracle := rfl
  have hhold : (setLabelsFail o).holderPages = o.holderPages := rfl
  have hnow : (setLabelsFail o).now = o.now := rfl
  have hb7 : ∀ ts, top7dOf (setLabelsFail o) ts = top7dOf o ts :=
    fun ts => rfl
  have hb30 : ∀ ts, top30dOf (setLabelsFail o) ts = top30dOf o ts :=
    fun ts => rfl
  have hbfor : ∀ ts, balancesFor (setLabelsFail o) ts = balancesFor o ts :=
    fun ts => rfl
  cases h1 : fetchPaged 10000 o.transferPages with
  | error e => simp [runMain, hts, hcnt, hbal, hhold, hnow, h1, Except.map]
  | ok ts =>
    cases h2 : graphqlQuery o.countReply with
    | error e =>
      simp [runMain, hts, hcnt, hbal, hhold, hnow, h1, h2, Except.map]
    | ok cnt =>
      cases h3 : balancesFor o ts with
      | error e =>
        simp [runMain, hts, hcnt, hbal, hhold, hnow, hbfor, h1, h2, h3,
          Except.map]
      | ok balances =>
        cases h4 : fetchTopHoldersM o.holderPages with
        | error e =>
          simp [runMain, hts, hcnt, hbal, hhold, hnow, hbfor, h1, h2, h3, h4,
            Except.map]
        | ok holders =>
          have hlab : (setLabelsFail o).labelsReply = Except.error () := rfl
          simp [runMain, hts, hcnt, hbal, hhold, hnow, hbfor, hb7, hb30,
            h1, h2, h3, h4, Except.map, hlab]

/-- C7: a run writes the output document exactly when every store query it
issues succeeds — there is at most one write, it happens only on a fully
successful run (a failing store query aborts with an error before any
write, leaving a previous artifact untouched), and a failing label read
does not abort: the run still succeeds, producing the same document with an
empty label map. -/
theorem C7_single_write_iff_store_ok (o : StoreOracle) :
    ((runWrites o).length ≤ 1) ∧
    (∀ s, runMain o = .ok s → runWrites o = [s]) ∧
    (∀ e, runMain o = .error e → runWrites o = []) ∧
    ((runMain o).isOk ↔ storeQueriesOk o) ∧
    ((runMain (setLabelsFail o)).isOk ↔ (runMain o).isOk) ∧
    (∀ s, runMain (setLabelsFail o) = .ok s →
      s.labels = [] ∧
      ∃ s0, runMain o = .ok s0 ∧ s.top_7d = s0.top_7d ∧
        s.top_30d = s0.top_30d ∧ s.top_holders = s0.top_holders ∧
        s.total_transfers = s0.total_transfers) := by
  refine ⟨?_, ?_, ?_, runMain_ok_iff o, ?_, ?_⟩
  · rw [runWrites]
    cases runMain o <;> simp
  · intro s hs
    rw [runWrites, hs]
  · intro e he
    rw [runWrites, he]
  · rw [runMain_setLabelsFail o]
    cases runMain o <;>
      simp [Except.map, exceptIsOk_ok, exceptIsOk_error]
  · intro s hs
    rw [runMain_setLabelsFail o] at hs
    cases h0 : runMain o with
    | error e =>
      rw [h0] at hs
      simp [Except.map] at hs
    | ok s0 =>
      rw [h0] at hs
      simp only [Except.map, Except.ok.injEq] at hs
      subst hs
      exact ⟨rfl, s0, rfl, rfl, rfl, rfl, rfl⟩

def c7oracle : StoreOracle :=
  { transferPages := []
    countReply := .http true 200 ("OK" : String) none 0
    balanceOracle := fun _ => .http true 200 ("OK" : String) none []
    holderPages := []
    labelsReply := .ok [(("0xA" : String), ("Label" : String))]
    now := 0 }

theorem C7_single_write_iff_store_ok_witness :
    runWrites c7oracle
      = [(⟨[], [], [], [(("0xa" : String), ("Label" : String))], 0⟩ : Summary)] ∧
    storeQueriesOk c7oracle ∧
    ((⟨[], [], [], [], 0⟩ : Summary).labels = ([] : List (String × String)) ∧
      ∃ s0, runMain c7oracle = .ok s0 ∧
        (⟨[], [], [], [], 0⟩ : Summary).top_7d = s0.top_7d ∧
        (⟨[], [], [], [], 0⟩ : Summary).top_30d = s0.top_30d ∧
        (⟨[], [], [], [], 0⟩ : Summary).top_holders = s0.top_holders ∧
        (⟨[], [], [], [], 0⟩ : Summary).total_transfers = s0.total_transfers) := by
  obtain ⟨h1, h2, h3, h4, h5, h6⟩ := C7_single_write_iff_store_ok c7oracle
  exact ⟨h2 _ (by rfl), h4.mp (by decide), h6 _ (by rfl)⟩

end GnoFlow
